import Mathlib

/-!
Verification development for the AutomatedEDA repository (src/task.py).

The core under study is `preprocess_data` (missing-value imputation with
mean/mode, one-hot encoding via pd.get_dummies, z-score scaling with the
sample standard deviation, and an underscore-stripping column rename) and the
visualization dispatchers (`visualize_scatterplot`, `visualize_pie_chart`).

Modelling choices, mirroring pandas semantics:
* A DataFrame is a `Table`: an ordered list of named columns.  A column is
  either numerical (dtype int/float, `Col.num`) or categorical (dtype object,
  `Col.cat`), matching the two `select_dtypes` calls at task.py:71-72 and the
  spec's data model (type tag is Categorical or Numerical).
* The pandas missing marker NaN is modelled as `Option.none`; float values are
  idealised as exact rationals `ℚ`.
* `Series.mean`/`Series.std` skip missing values (pandas skipna=True); `std`
  uses ddof=1 (sample std) and is NaN when fewer than two values remain.
* `DataFrame.mode()` drops NaN and returns each column's modes sorted
  ascending (pandas sorts mode values); `.iloc[0]` takes the first row, i.e.
  the smallest mode per column, and raises IndexError when no column has any
  mode (zero mode rows).  That IndexError is `PErr.indexError`.
* `pd.get_dummies` appends, for each object column, one 0/1 indicator column
  per distinct non-missing value (categories sorted ascending), dropping the
  original column; rows whose cell is NaN get 0 in every indicator, and an
  all-NaN column yields no indicator columns.  Non-object columns keep their
  position before the appended indicator block.
* The scaled value (x - mean)/std lives in `ℝ` because std is a square root;
  `(x - mean)/std` is NaN when x, mean or std is NaN, and 0/0 = NaN when
  std = 0 (when the sample variance is 0 every x equals the mean, so the
  numerator is 0; a nonzero numerator over a zero std cannot arise here).
* The scaling targets are selected BY NAME: `encoded_data[numerical_columns]`
  picks every encoded column whose label is a pre-encoding numerical column
  name.  When a get_dummies indicator name collides with a numerical name the
  duplicated-label selection includes the indicator, so the code z-scores the
  indicator too (each column with its own mean/std, aligned positionally);
  the model reproduces this.
* `columns.str.replace("_", "")` removes every underscore from every column
  name (the pattern is a single literal character).
* String comparison (used by mode/get_dummies sorting) is lexicographic by
  code point, as in Python; it is defined structurally below so that it can
  be evaluated by the kernel.
-/

namespace AutoEDA

/-- Lexicographic comparison of char lists by code point, as Python compares
strings. -/
def clLe : List Char → List Char → Bool
  | [], _ => true
  | _ :: _, [] => false
  | a :: as, b :: bs =>
    if a.toNat < b.toNat then true
    else if b.toNat < a.toNat then false
    else clLe as bs

/-- Lexicographic order on strings by code point. -/
def strLe (a b : String) : Bool := clLe a.data b.data

/-- Insert an element into a list sorted by the boolean relation `le`. -/
def insLe {α : Type} (le : α → α → Bool) (v : α) : List α → List α
  | [] => [v]
  | a :: t => if le v a then v :: a :: t else a :: insLe le v t

/-- Insertion sort by the boolean relation `le` (stable). -/
def sortLe {α : Type} (le : α → α → Bool) : List α → List α
  | [] => []
  | a :: t => insLe le a (sortLe le t)

/-- Distinct values of a list, keeping the first occurrence of each value. -/
def dedupF {α : Type} [DecidableEq α] : List α → List α
  | [] => []
  | a :: t => a :: (dedupF t).filter (fun b => b ≠ a)

/-- A numerical cell: `none` is the missing marker NaN. -/
abbrev NCell := Option ℚ

/-- A categorical cell: `none` is the missing marker NaN. -/
abbrev CCell := Option String

/-- A DataFrame column with its dtype: object (`cat`) or int/float (`num`). -/
inductive Col where
  | num (vals : List NCell)
  | cat (vals : List CCell)
deriving DecidableEq

/-- A DataFrame: named columns in order. -/
structure Table where
  cols : List (String × Col)
deriving DecidableEq

/-- dtype == "object" test used by the visualization dispatchers. -/
def Col.isCat : Col → Bool
  | .num _ => false
  | .cat _ => true

/-- Number of cells in a column. -/
def Col.len : Col → Nat
  | .num v => v.length
  | .cat v => v.length

/-- Selector of a numerical column entry. -/
def numSel (nc : String × Col) : Option (String × List NCell) :=
  match nc.2 with
  | .num v => some (nc.1, v)
  | .cat _ => none

/-- Selector of a categorical column entry. -/
def catSel (nc : String × Col) : Option (String × List CCell) :=
  match nc.2 with
  | .num _ => none
  | .cat v => some (nc.1, v)

/-- The numerical columns, in order: `data.select_dtypes(include=["int", "float"])`. -/
def Table.numCols (t : Table) : List (String × List NCell) :=
  t.cols.filterMap numSel

/-- The categorical columns, in order: `data.select_dtypes(include="object")`. -/
def Table.catCols (t : Table) : List (String × List CCell) :=
  t.cols.filterMap catSel

/-- The non-missing values of a column, in order (pandas skipna). -/
def somes {α : Type} (l : List (Option α)) : List α := l.filterMap id

/-- `Series.mean()`: arithmetic mean of the non-missing values, NaN when there
are none. -/
def meanQ (vals : List NCell) : NCell :=
  let xs := somes vals
  if xs.length = 0 then none else some (xs.sum / (xs.length : ℚ))

/-- `Series.fillna(d)` on one cell: a missing cell becomes `d` (itself possibly
missing, in which case the hole stays), a present cell is kept. -/
def fillCell {α : Type} (d : Option α) : Option α → Option α
  | none => d
  | some v => some v

/-- `data[numerical_columns].fillna(data[numerical_columns].mean())` for one
column (task.py:75-77). -/
def fillMean (vals : List NCell) : List NCell := vals.map (fillCell (meanQ vals))

/-- Numerical imputation applied to one column of the table. -/
def impNumCol : Col → Col
  | .num v => .num (fillMean v)
  | .cat v => .cat v

/-- State of the DataFrame after the in-place numerical imputation at
task.py:75-77. -/
def imputeNumT (t : Table) : Table := ⟨t.cols.map (fun nc => (nc.1, impNumCol nc.2))⟩

/-- Non-missing values of a categorical column. -/
def observedS (vals : List CCell) : List String := somes vals

/-- The maximal number of occurrences of any value of `l`. -/
def maxCnt (l : List String) : Nat :=
  ((dedupF l).map (fun v => l.count v)).foldr max 0

/-- `Series.mode()`: the most frequent non-missing values, sorted ascending
(pandas returns the modes in sorted order). -/
def modesSorted (vals : List CCell) : List String :=
  sortLe strLe
    ((dedupF (observedS vals)).filter
      (fun v => (observedS vals).count v = maxCnt (observedS vals)))

/-- The per-column entry of `data[categorical_columns].mode().iloc[0]`: the
smallest mode, or NaN for a column with no modes (when the row itself exists). -/
def modeHead (vals : List CCell) : CCell := (modesSorted vals).head?

/-- Whether `data[categorical_columns].mode()` has at least one row, i.e.
`.iloc[0]` does not raise IndexError: some categorical column has a mode.
With no categorical columns at all the mode frame has zero rows. -/
def modeRowExists (t : Table) : Bool :=
  t.catCols.any (fun nc => !(observedS nc.2).isEmpty)

/-- Categorical imputation applied to one column (fill value: the column's
entry of the first mode row). -/
def impCatCol : Col → Col
  | .num v => .num v
  | .cat v => .cat (v.map (fillCell (modeHead v)))

/-- State of the DataFrame after the in-place categorical imputation at
task.py:80-82. -/
def imputeCatT (t : Table) : Table := ⟨t.cols.map (fun nc => (nc.1, impCatCol nc.2))⟩

/-- The failure `preprocess_data` can raise: the IndexError from
`mode().iloc[0]` on an empty mode frame.  The code defines no other error
path (none of the spec's DegenerateColumn / NameCollision / ZeroVariance
conditions exists in the code). -/
inductive PErr where
  | indexError
deriving DecidableEq

/-- The state of `preprocess_data`'s argument after the call: the two fillna
assignments at task.py:75 and task.py:80 write into the caller's DataFrame
in place; every later step (get_dummies, scaling, rename) builds or mutates
only the new frame `encoded_data`.  When `mode().iloc[0]` raises, the
categorical assignment never runs. -/
def preprocessArg (t : Table) : Table :=
  let t1 := imputeNumT t
  if modeRowExists t1 then imputeCatT t1 else t1

/-- The imputation phase of `preprocess_data` (task.py:74-82): numerical
fillna, then categorical fillna with the first mode row, which raises
IndexError when the mode frame is empty. -/
def imputeTableE (t : Table) : Except PErr Table :=
  let t1 := imputeNumT t
  if modeRowExists t1 then Except.ok (imputeCatT t1) else Except.error PErr.indexError

/-- Distinct values sorted ascending: the categories pd.get_dummies derives
for an object column. -/
def sortedDistinct (l : List String) : List String := sortLe strLe (dedupF l)

/-- One indicator column: 1 where the cell equals the category, else 0
(a missing cell gets 0 in every indicator). -/
def dummyCol (v : String) (vals : List CCell) : List ℚ :=
  vals.map (fun c => if c = some v then (1 : ℚ) else 0)

/-- The indicator columns pd.get_dummies produces for the object column
`n`, named `n ++ "_" ++ value`, one per distinct non-missing value. -/
def dummyGroup (n : String) (vals : List CCell) : List (String × List ℚ) :=
  (sortedDistinct (observedS vals)).map (fun v => (n ++ "_" ++ v, dummyCol v vals))

/-- A column of the encoded frame: a passed-through numerical column or a
0/1 indicator column. -/
inductive ECol where
  | num (vals : List NCell)
  | ind (vals : List ℚ)

/-- The encoded frame. -/
structure ETable where
  cols : List (String × ECol)

/-- `pd.get_dummies(data, columns=categorical_columns)` (task.py:85): the
non-encoded columns keep their relative order, the indicator groups are
appended behind them, one group per categorical column in order. -/
def encodeTable (t : Table) : ETable :=
  ⟨(t.numCols.map (fun nc => (nc.1, ECol.num nc.2))) ++
   (t.catCols.flatMap (fun nc =>
      (dummyGroup nc.1 nc.2).map (fun d => (d.1, ECol.ind d.2))))⟩

/-- `Series.std()` squared: the sample variance (ddof=1) of the non-missing
values, NaN when fewer than two remain.  The std itself is its square root;
the variance is kept in `ℚ` because NaN-ness and zero-ness of the std agree
with those of the variance. -/
def sampleVar (vals : List NCell) : NCell :=
  let xs := somes vals
  if xs.length < 2 then none
  else
    let m := xs.sum / (xs.length : ℚ)
    some ((xs.map (fun x => (x - m) * (x - m))).sum / ((xs.length : ℚ) - 1))

/-- One cell of `(x - mean) / std` with `std = sqrt variance`: NaN when the
cell, the mean or the std is NaN, and NaN (0/0) when the std is 0 — a zero
sample variance forces every x to equal the mean, so the numerator is 0
whenever the denominator is. -/
noncomputable def scaleCell (m v : NCell) (x : NCell) : Option ℝ :=
  match x, m, v with
  | some x, some m, some v =>
      if v = 0 then none else some (((x : ℝ) - (m : ℝ)) / Real.sqrt (v : ℝ))
  | _, _, _ => none

/-- `(col - col.mean()) / col.std()` for one numerical column (task.py:88-91). -/
noncomputable def scaleColV (vals : List NCell) : List (Option ℝ) :=
  vals.map (scaleCell (meanQ vals) (sampleVar vals))

/-- A column of the preprocessed frame: a scaled numerical column or an
untouched 0/1 indicator column. -/
inductive PCol where
  | num (vals : List (Option ℝ))
  | ind (vals : List ℚ)

/-- The preprocessed frame. -/
structure PTable where
  cols : List (String × PCol)

/-- Z-scoring of one selected column.  A passed-through numerical column is
scaled over its (possibly missing) cells; an indicator column selected by a
name collision is scaled over its 0/1 cells (pandas casts the bool dummies
to numeric for the arithmetic), each column with its own mean and std — the
duplicated-label selection, the mean/std Series and the assignment all align
positionally because they share one column axis. -/
noncomputable def scaleECol : ECol → PCol
  | .num v => .num (scaleColV v)
  | .ind v => .num (scaleColV (v.map some))

/-- A column left alone by the scaling assignment.  A numerical column can
never take this branch in the pipeline (every numerical column's name is in
`numerical_columns`); it is kept so that the selection below is purely by
name, as in the code. -/
noncomputable def passECol : ECol → PCol
  | .num v => .num (v.map (Option.map (fun q : ℚ => (q : ℝ))))
  | .ind v => .ind v

/-- `encoded_data[numerical_columns] = scaled_data` (task.py:88-91): the
scaling targets are selected BY NAME — every encoded column whose label
occurs in the pre-encoding `numerical_columns` index is replaced by its
z-scored version, which at a name collision includes the get_dummies
indicator sharing a numerical column's name (modern pandas scales both
duplicate-label columns positionally; the model follows that semantics).
All other columns pass through. -/
noncomputable def scaleETable (nums : List String) (e : ETable) : PTable :=
  ⟨e.cols.map (fun nc =>
    (nc.1, if nc.1 ∈ nums then scaleECol nc.2 else passECol nc.2))⟩

/-- `columns.str.replace("_", "")`: drop every underscore of a name
(task.py:94). -/
def stripU (s : String) : String := ⟨s.data.filter (fun c => c ≠ '_')⟩

/-- The column rename at task.py:94, applied to every column name verbatim;
duplicate resulting names are kept as duplicates (pandas allows them). -/
noncomputable def renameP (p : PTable) : PTable :=
  ⟨p.cols.map (fun nc => (stripU nc.1, nc.2))⟩

/-- `preprocess_data` (task.py:69-96): impute, encode, scale (targets
selected by the `numerical_columns` names captured at task.py:72), rename.
The only failure is the IndexError of the imputation phase. -/
noncomputable def preprocess_data (t : Table) : Except PErr PTable :=
  match imputeTableE t with
  | .error e => .error e
  | .ok t2 => .ok (renameP (scaleETable (t.numCols.map Prod.fst) (encodeTable t2)))

/-- The columns of the preprocessed frame (empty on failure); a convenient
projection for stating properties of `preprocess_data`. -/
noncomputable def prepCols (t : Table) : List (String × PCol) :=
  match preprocess_data t with
  | .ok p => p.cols
  | .error _ => []

/-- Number of cells of a preprocessed column. -/
def PCol.plen : PCol → Nat
  | .num v => v.length
  | .ind v => v.length

/-- Whether a preprocessed column is an (unscaled) 0/1 indicator column, as
opposed to a z-scored numeric column. -/
def PCol.isInd : PCol → Bool
  | .num _ => false
  | .ind _ => true

/-- Whether a preprocessed column is free of missing markers (indicator
columns always are: get_dummies emits only 0/1). -/
def PCol.missingFreeCol : PCol → Bool
  | .num v => v.all (fun c => c.isSome)
  | .ind _ => true

/-- Whether the whole preprocessed frame is free of missing markers. -/
def PTable.missingFree (p : PTable) : Bool :=
  p.cols.all (fun nc => nc.2.missingFreeCol)

/-- Missing-freeness of `preprocess_data`'s result (`none` on failure). -/
noncomputable def prepMissingFree (t : Table) : Option Bool :=
  (preprocess_data t).toOption.map PTable.missingFree

/-- Whether a raw table contains no missing marker at all. -/
def Col.missingFreeRaw : Col → Bool
  | .num v => v.all (fun c => c.isSome)
  | .cat v => v.all (fun c => c.isSome)

/-- Whether the raw table contains no missing marker at all. -/
def Table.noMissing (t : Table) : Bool :=
  t.cols.all (fun nc => nc.2.missingFreeRaw)

/-- Column lookup by name (`data[name]`). -/
def lookupCol (t : Table) (n : String) : Option Col :=
  (t.cols.find? (fun nc => nc.1 == n)).map (fun nc => nc.2)

/-- The rendering strategy `visualize_scatterplot` resolves: a seaborn
scatterplot or stripplot, with the optional hue (color-grouping) column. -/
inductive ScatterStrategy where
  | scatter (hue : Option String)
  | strip (hue : Option String)
deriving DecidableEq

/-- The dtype dispatch of `visualize_scatterplot` (task.py:182-220): both
object → scatter hued by x; x object only → strip hued by x; y object only →
strip hued by y; neither → plain scatter.  `none` when a column is absent
(the code would raise a KeyError). -/
def visualize_scatterplot (t : Table) (x y : String) : Option ScatterStrategy :=
  match lookupCol t x, lookupCol t y with
  | some cx, some cy =>
      some
        (if cx.isCat && cy.isCat then ScatterStrategy.scatter (some x)
         else if cx.isCat then ScatterStrategy.strip (some x)
         else if cy.isCat then ScatterStrategy.strip (some y)
         else ScatterStrategy.scatter none)
  | _, _ => none

/-- A pie slice label: the counted value, numeric or string. -/
inductive PieVal where
  | q (v : ℚ)
  | s (v : String)
deriving DecidableEq

/-- `Series.value_counts()`: occurrence counts of the distinct non-missing
values, sorted by count descending (stable, first-appearance order within
equal counts). -/
def valueCounts {α : Type} [DecidableEq α] (l : List α) : List (α × Nat) :=
  sortLe (fun a b => decide (b.2 ≤ a.2))
    ((dedupF l).map (fun v => (v, l.count v)))

/-- The pie slices `visualize_pie_chart` draws for a column: one slice per
distinct non-missing value with its count, whatever the dtype — the function
has no dtype branch. -/
def pieSlices : Col → List (PieVal × Nat)
  | .num v => (valueCounts (somes v)).map (fun p => (PieVal.q p.1, p.2))
  | .cat v => (valueCounts (somes v)).map (fun p => (PieVal.s p.1, p.2))

/-- `visualize_pie_chart` (task.py:222-238): value_counts then plt.pie, for
any column; `none` only when the column is absent (KeyError). -/
def visualize_pie_chart (t : Table) (n : String) : Option (List (PieVal × Nat)) :=
  (lookupCol t n).map pieSlices

/-- Elementwise sum of two ℚ columns. -/
def addV (a b : List ℚ) : List ℚ := List.zipWith (fun x y => x + y) a b

/-- Elementwise sum of a family of ℚ columns of length `n`. -/
def sumCols (cols : List (List ℚ)) (n : Nat) : List ℚ :=
  cols.foldr addV (List.replicate n (0 : ℚ))

/-- Modelled from the spec and claim C6 wording: the tie-break the claim
asserts — among the values tied for most frequent, the one occurring first
in the column's original order. -/
def modeFirstEncountered (vals : List CCell) : CCell :=
  ((dedupF (observedS vals)).filter
    (fun v => (observedS vals).count v = maxCnt (observedS vals))).head?

/-! ### Order, sort and dedup infrastructure -/

theorem char_toNat_inj {a b : Char} (h : a.toNat = b.toNat) : a = b := by
  unfold Char.toNat at h
  exact Char.ext (UInt32.ext h)

theorem clLe_refl (l : List Char) : clLe l l = true := by
  induction l with
  | nil => rfl
  | cons a t ih => simp [clLe, ih]

theorem clLe_total (l1 l2 : List Char) : clLe l1 l2 = true ∨ clLe l2 l1 = true := by
  induction l1 generalizing l2 with
  | nil => left; rfl
  | cons a t ih =>
    cases l2 with
    | nil => right; rfl
    | cons b s =>
      by_cases h1 : a.toNat < b.toNat
      · left; simp [clLe, h1]
      · by_cases h2 : b.toNat < a.toNat
        · right; simp [clLe, h2]
        · rcases ih s with h | h
          · left; simp [clLe, h1, h2, h]
          · right; simp [clLe, h1, h2, h]

theorem clLe_trans (l1 : List Char) :
    ∀ l2 l3, clLe l1 l2 = true → clLe l2 l3 = true → clLe l1 l3 = true := by
  induction l1 with
  | nil => intro l2 l3 _ _; rfl
  | cons a t ih =>
    intro l2 l3 h1 h2
    cases l2 with
    | nil => simp [clLe] at h1
    | cons b s =>
      cases l3 with
      | nil => simp [clLe] at h2
      | cons c r =>
        simp only [clLe] at h1 h2 ⊢
        by_cases hab : a.toNat < b.toNat
        · by_cases hbc : b.toNat < c.toNat
          · have hac : a.toNat < c.toNat := Nat.lt_trans hab hbc
            simp [hac]
          · by_cases hcb : c.toNat < b.toNat
            · simp [hbc, hcb] at h2
            · have hac : a.toNat < c.toNat := by omega
              simp [hac]
        · by_cases hba : b.toNat < a.toNat
          · simp [hab, hba] at h1
          · by_cases hbc : b.toNat < c.toNat
            · have hac : a.toNat < c.toNat := by omega
              simp [hac]
            · by_cases hcb : c.toNat < b.toNat
              · simp [hbc, hcb] at h2
              · have hac : ¬ a.toNat < c.toNat := by omega
                have hca : ¬ c.toNat < a.toNat := by omega
                simp [hab, hba] at h1
                simp [hbc, hcb] at h2
                simp [hac, hca]
                exact ih s r h1 h2

theorem clLe_antisymm (l1 : List Char) :
    ∀ l2, clLe l1 l2 = true → clLe l2 l1 = true → l1 = l2 := by
  induction l1 with
  | nil =>
    intro l2 _ h2
    cases l2 with
    | nil => rfl
    | cons b s => simp [clLe] at h2
  | cons a t ih =>
    intro l2 h1 h2
    cases l2 with
    | nil => simp [clLe] at h1
    | cons b s =>
      simp only [clLe] at h1 h2
      by_cases hab : a.toNat < b.toNat
      · have hba : ¬ b.toNat < a.toNat := by omega
        simp [hab, hba] at h2
      · by_cases hba : b.toNat < a.toNat
        · simp [hab, hba] at h1
        · have hnatab : a.toNat = b.toNat := by omega
          have hchar : a = b := char_toNat_inj hnatab
          simp [hab, hba] at h1 h2
          rw [hchar, ih s h1 h2]

theorem strLe_refl (a : String) : strLe a a = true := clLe_refl a.data

theorem strLe_total (a b : String) : strLe a b = true ∨ strLe b a = true :=
  clLe_total a.data b.data

theorem strLe_trans (a b c : String) (h1 : strLe a b = true) (h2 : strLe b c = true) :
    strLe a c = true := clLe_trans a.data b.data c.data h1 h2

theorem strLe_antisymm (a b : String) (h1 : strLe a b = true) (h2 : strLe b a = true) :
    a = b := by
  cases a with
  | mk d1 =>
    cases b with
    | mk d2 =>
      have : d1 = d2 := clLe_antisymm d1 d2 h1 h2
      rw [this]

theorem mem_insLe {α : Type} (le : α → α → Bool) (v : α) (l : List α) (a : α) :
    a ∈ insLe le v l ↔ a = v ∨ a ∈ l := by
  induction l with
  | nil => simp [insLe]
  | cons b t ih =>
    simp only [insLe]
    by_cases h : le v b = true
    · rw [if_pos h]
      simp [List.mem_cons]
    · rw [if_neg h]
      simp only [List.mem_cons, ih]
      tauto

theorem perm_insLe {α : Type} (le : α → α → Bool) (v : α) (l : List α) :
    (insLe le v l).Perm (v :: l) := by
  induction l with
  | nil => exact List.Perm.refl _
  | cons b t ih =>
    simp only [insLe]
    by_cases h : le v b = true
    · rw [if_pos h]
    · rw [if_neg h]
      exact (ih.cons b).trans (List.Perm.swap v b t)

theorem perm_sortLe {α : Type} (le : α → α → Bool) (l : List α) :
    (sortLe le l).Perm l := by
  induction l with
  | nil => exact List.Perm.refl _
  | cons a t ih => exact (perm_insLe le a (sortLe le t)).trans (ih.cons a)

theorem mem_sortLe {α : Type} (le : α → α → Bool) (l : List α) (a : α) :
    a ∈ sortLe le l ↔ a ∈ l := (perm_sortLe le l).mem_iff

theorem le_refl_of_total {α : Type} (le : α → α → Bool)
    (htot : ∀ a b, le a b = false → le b a = true) (a : α) : le a a = true := by
  by_cases h : le a a = true
  · exact h
  · exact htot a a (by simpa using h)

theorem pairwise_insLe {α : Type} (le : α → α → Bool)
    (htot : ∀ a b, le a b = false → le b a = true)
    (htrans : ∀ a b c, le a b = true → le b c = true → le a c = true)
    (v : α) (l : List α) (hl : l.Pairwise (fun a b => le a b = true)) :
    (insLe le v l).Pairwise (fun a b => le a b = true) := by
  induction l with
  | nil => simp [insLe]
  | cons b t ih =>
    rcases List.pairwise_cons.mp hl with ⟨hb, ht⟩
    simp only [insLe]
    by_cases h : le v b = true
    · rw [if_pos h]
      refine List.pairwise_cons.mpr ⟨?_, hl⟩
      intro x hx
      rcases List.mem_cons.mp hx with rfl | hx2
      · exact h
      · exact htrans v b x h (hb x hx2)
    · rw [if_neg h]
      refine List.pairwise_cons.mpr ⟨?_, ih ht⟩
      intro x hx
      rcases (mem_insLe le v t x).mp hx with hxv | hx2
      · rw [hxv]
        exact htot v b (by simpa using h)
      · exact hb x hx2

theorem pairwise_sortLe {α : Type} (le : α → α → Bool)
    (htot : ∀ a b, le a b = false → le b a = true)
    (htrans : ∀ a b c, le a b = true → le b c = true → le a c = true)
    (l : List α) : (sortLe le l).Pairwise (fun a b => le a b = true) := by
  induction l with
  | nil => simp [sortLe]
  | cons a t ih =>
    exact pairwise_insLe le htot htrans a (sortLe le t) ih

theorem sortLe_head_le {α : Type} (le : α → α → Bool)
    (htot : ∀ a b, le a b = false → le b a = true)
    (htrans : ∀ a b c, le a b = true → le b c = true → le a c = true)
    (l : List α) (h : α) (hh : (sortLe le l).head? = some h)
    (b : α) (hb : b ∈ sortLe le l) : le h b = true := by
  have hp := pairwise_sortLe le htot htrans l
  cases hsl : sortLe le l with
  | nil => rw [hsl] at hh; simp at hh
  | cons x s =>
    rw [hsl] at hh hb hp
    have hx : x = h := by simpa using hh
    subst hx
    rcases List.mem_cons.mp hb with rfl | hbs
    · exact le_refl_of_total le htot b
    · exact (List.pairwise_cons.mp hp).1 b hbs

theorem mem_dedupF {α : Type} [DecidableEq α] (l : List α) (a : α) :
    a ∈ dedupF l ↔ a ∈ l := by
  induction l with
  | nil => simp [dedupF]
  | cons b t ih =>
    simp only [dedupF, List.mem_cons, List.mem_filter]
    constructor
    · rintro (rfl | ⟨h1, _⟩)
      · left; rfl
      · right; exact ih.mp h1
    · rintro (rfl | h)
      · left; rfl
      · by_cases hab : a = b
        · left; exact hab
        · right; exact ⟨ih.mpr h, by simpa using hab⟩

theorem nodup_dedupF {α : Type} [DecidableEq α] (l : List α) : (dedupF l).Nodup := by
  induction l with
  | nil => simp [dedupF]
  | cons b t ih =>
    simp only [dedupF]
    refine List.nodup_cons.mpr ⟨?_, ih.filter _⟩
    intro hmem
    rcases List.mem_filter.mp hmem with ⟨_, hb⟩
    simp at hb

theorem filter_ne_map_sum {α : Type} [DecidableEq α] (f : α → Nat) (a : α)
    (L : List α) (hnd : L.Nodup) :
    ((L.filter (fun x => x ≠ a)).map f).sum + (if a ∈ L then f a else 0)
      = (L.map f).sum := by
  induction L with
  | nil => simp
  | cons b t ih =>
    rcases List.nodup_cons.mp hnd with ⟨hb, ht⟩
    have ihv := ih ht
    by_cases hba : b = a
    · subst hba
      have hft : t.filter (fun x => x ≠ b) = t := by
        apply List.filter_eq_self.mpr
        intro x hx
        simp only [ne_eq, decide_eq_true_eq]
        rintro rfl
        exact hb hx
      have h1 : (b :: t).filter (fun x => x ≠ b) = t := by
        rw [List.filter_cons_of_neg (by simp), hft]
      rw [h1, if_pos (List.mem_cons_self b t)]
      simp only [List.map_cons, List.sum_cons]
      omega
    · have h1 : (b :: t).filter (fun x => x ≠ a) = b :: t.filter (fun x => x ≠ a) := by
        rw [List.filter_cons_of_pos (by simpa using hba)]
      rw [h1]
      simp only [List.map_cons, List.sum_cons]
      by_cases ha : a ∈ t
      · rw [if_pos (List.mem_cons_of_mem b ha)]
        rw [if_pos ha] at ihv
        omega
      · have hnotm : a ∉ b :: t := by
          intro hc
          rcases List.mem_cons.mp hc with h2 | h2
          · exact hba h2.symm
          · exact ha h2
        rw [if_neg hnotm]
        rw [if_neg ha] at ihv
        omega

theorem sum_count_dedupF {α : Type} [DecidableEq α] (l : List α) :
    ((dedupF l).map (fun v => l.count v)).sum = l.length := by
  induction l with
  | nil => simp [dedupF]
  | cons a t ih =>
    simp only [dedupF, List.map_cons, List.sum_cons]
    have hhead : (a :: t).count a = t.count a + 1 := by simp [List.count_cons]
    have hrest : ((dedupF t).filter (fun b => b ≠ a)).map (fun v => (a :: t).count v)
        = ((dedupF t).filter (fun b => b ≠ a)).map (fun v => t.count v) := by
      apply List.map_congr_left
      intro x hx
      rcases List.mem_filter.mp hx with ⟨_, hxa⟩
      have hxa2 : x ≠ a := by simpa using hxa
      simp [List.count_cons, hxa2]
    rw [hhead, hrest]
    have hsub := filter_ne_map_sum (fun v => t.count v) a (dedupF t) (nodup_dedupF t)
    by_cases ha : a ∈ t
    · have hmem : a ∈ dedupF t := (mem_dedupF t a).mpr ha
      rw [if_pos hmem] at hsub
      have hsub2 : (((dedupF t).filter (fun x => x ≠ a)).map (fun v => t.count v)).sum
          + t.count a = ((dedupF t).map (fun v => t.count v)).sum := by
        simpa using hsub
      simp only [List.length_cons]
      omega
    · have hmem : a ∉ dedupF t := fun hc => ha ((mem_dedupF t a).mp hc)
      rw [if_neg hmem] at hsub
      have hca : t.count a = 0 := List.count_eq_zero.mpr ha
      simp only [List.length_cons]
      omega

/-! ### Structure of the pipeline stages -/

theorem filterMap_num_impNum (l : List (String × Col)) :
    (l.map (fun nc => (nc.1, impNumCol nc.2))).filterMap numSel
      = (l.filterMap numSel).map (fun nc => (nc.1, fillMean nc.2)) := by
  induction l with
  | nil => rfl
  | cons c r ih =>
    obtain ⟨nm, cc⟩ := c
    cases cc with
    | num v =>
      simp only [impNumCol] at ih ⊢
      simp only [List.map_cons, List.filterMap_cons, numSel, ih]
    | cat v =>
      simp only [impNumCol] at ih ⊢
      simp only [List.map_cons, List.filterMap_cons, numSel, ih]

theorem filterMap_cat_impNum (l : List (String × Col)) :
    (l.map (fun nc => (nc.1, impNumCol nc.2))).filterMap catSel
      = l.filterMap catSel := by
  induction l with
  | nil => rfl
  | cons c r ih =>
    obtain ⟨nm, cc⟩ := c
    cases cc with
    | num v =>
      simp only [impNumCol] at ih ⊢
      simp only [List.map_cons, List.filterMap_cons, catSel, ih]
    | cat v =>
      simp only [impNumCol] at ih ⊢
      simp only [List.map_cons, List.filterMap_cons, catSel, ih]

theorem filterMap_num_impCat (l : List (String × Col)) :
    (l.map (fun nc => (nc.1, impCatCol nc.2))).filterMap numSel
      = l.filterMap numSel := by
  induction l with
  | nil => rfl
  | cons c r ih =>
    obtain ⟨nm, cc⟩ := c
    cases cc with
    | num v =>
      simp only [impCatCol] at ih ⊢
      simp only [List.map_cons, List.filterMap_cons, numSel, ih]
    | cat v =>
      simp only [impCatCol] at ih ⊢
      simp only [List.map_cons, List.filterMap_cons, numSel, ih]

theorem filterMap_cat_impCat (l : List (String × Col)) :
    (l.map (fun nc => (nc.1, impCatCol nc.2))).filterMap catSel
      = (l.filterMap catSel).map (fun nc => (nc.1, nc.2.map (fillCell (modeHead nc.2)))) := by
  induction l with
  | nil => rfl
  | cons c r ih =>
    obtain ⟨nm, cc⟩ := c
    cases cc with
    | num v =>
      simp only [impCatCol] at ih ⊢
      simp only [List.map_cons, List.filterMap_cons, catSel, ih]
    | cat v =>
      simp only [impCatCol] at ih ⊢
      simp only [List.map_cons, List.filterMap_cons, catSel, ih]

theorem numCols_imputeNumT (t : Table) :
    (imputeNumT t).numCols = t.numCols.map (fun nc => (nc.1, fillMean nc.2)) := by
  simp only [Table.numCols, imputeNumT]
  exact filterMap_num_impNum t.cols

theorem catCols_imputeNumT (t : Table) : (imputeNumT t).catCols = t.catCols := by
  simp only [Table.catCols, imputeNumT]
  exact filterMap_cat_impNum t.cols

theorem numCols_imputeCatT (t : Table) : (imputeCatT t).numCols = t.numCols := by
  simp only [Table.numCols, imputeCatT]
  exact filterMap_num_impCat t.cols

theorem catCols_imputeCatT (t : Table) :
    (imputeCatT t).catCols
      = t.catCols.map (fun nc => (nc.1, nc.2.map (fillCell (modeHead nc.2)))) := by
  simp only [Table.catCols, imputeCatT]
  exact filterMap_cat_impCat t.cols

theorem preprocess_ok (t : Table) (h : modeRowExists (imputeNumT t) = true) :
    preprocess_data t
      = Except.ok (renameP (scaleETable (t.numCols.map Prod.fst)
          (encodeTable (imputeCatT (imputeNumT t))))) := by
  simp [preprocess_data, imputeTableE, h]

theorem preprocess_err (t : Table) (h : modeRowExists (imputeNumT t) = false) :
    preprocess_data t = Except.error PErr.indexError := by
  simp [preprocess_data, imputeTableE, h]

theorem flatMap_congr_mem {α β : Type} (l : List α) (f g : α → List β)
    (h : ∀ a ∈ l, f a = g a) : l.flatMap f = l.flatMap g := by
  induction l with
  | nil => rfl
  | cons a t ih =>
    rw [List.flatMap_cons, List.flatMap_cons, h a (List.mem_cons_self a t),
      ih (fun x hx => h x (List.mem_cons_of_mem a hx))]

theorem encode_names (t2 : Table) :
    (encodeTable t2).cols.map Prod.fst
      = t2.numCols.map Prod.fst
        ++ t2.catCols.flatMap (fun nc => (dummyGroup nc.1 nc.2).map Prod.fst) := by
  simp [encodeTable, List.map_append, List.map_map, List.map_flatMap,
    Function.comp_def]

theorem scaleETable_names (nums : List String) (e : ETable) :
    (scaleETable nums e).cols.map Prod.fst = e.cols.map Prod.fst := by
  unfold scaleETable
  rw [List.map_map]
  rfl

theorem renameP_names (p : PTable) :
    (renameP p).cols.map Prod.fst = (p.cols.map Prod.fst).map stripU := by
  unfold renameP
  rw [List.map_map, List.map_map]
  rfl

theorem numNames_imputed (t : Table) :
    (imputeCatT (imputeNumT t)).numCols.map Prod.fst = t.numCols.map Prod.fst := by
  rw [numCols_imputeCatT, numCols_imputeNumT, List.map_map]
  rfl

theorem hnum_imputed (t : Table) :
    ∀ nc ∈ (imputeCatT (imputeNumT t)).numCols, nc.1 ∈ t.numCols.map Prod.fst := by
  intro nc hnc
  rw [← numNames_imputed t]
  exact List.mem_map.mpr ⟨nc, hnc, rfl⟩

theorem hdum_imputed (t : Table)
    (hnod : ((encodeTable (imputeCatT (imputeNumT t))).cols.map Prod.fst).Nodup) :
    ∀ nc ∈ (imputeCatT (imputeNumT t)).catCols, ∀ d ∈ dummyGroup nc.1 nc.2,
      d.1 ∉ t.numCols.map Prod.fst := by
  rw [encode_names] at hnod
  rcases List.nodup_append.mp hnod with ⟨_, _, hdisj⟩
  intro nc hnc d hd hmem
  have hd1 : d.1 ∈ (imputeCatT (imputeNumT t)).catCols.flatMap
      (fun nc => (dummyGroup nc.1 nc.2).map Prod.fst) :=
    List.mem_flatMap.mpr ⟨nc, hnc, List.mem_map.mpr ⟨d, hd, rfl⟩⟩
  have hm2 : d.1 ∈ (imputeCatT (imputeNumT t)).numCols.map Prod.fst := by
    rw [numNames_imputed t]
    exact hmem
  exact hdisj hm2 hd1

theorem renamed_scaled_cols (t2 : Table) (nums : List String)
    (hnum : ∀ nc ∈ t2.numCols, nc.1 ∈ nums)
    (hdum : ∀ nc ∈ t2.catCols, ∀ d ∈ dummyGroup nc.1 nc.2, d.1 ∉ nums) :
    (renameP (scaleETable nums (encodeTable t2))).cols =
      (t2.numCols.map (fun nc => (stripU nc.1, PCol.num (scaleColV nc.2)))) ++
      (t2.catCols.flatMap (fun nc =>
        (dummyGroup nc.1 nc.2).map (fun d => (stripU d.1, PCol.ind d.2)))) := by
  simp only [renameP, scaleETable, encodeTable, List.map_append, List.map_map,
    List.map_flatMap, Function.comp_def]
  congr 1
  · apply List.map_congr_left
    intro nc hnc
    show (stripU nc.1,
        if nc.1 ∈ nums then scaleECol (ECol.num nc.2) else passECol (ECol.num nc.2))
      = (stripU nc.1, PCol.num (scaleColV nc.2))
    rw [if_pos (hnum nc hnc)]
    rfl
  · apply flatMap_congr_mem
    intro nc hnc
    apply List.map_congr_left
    intro d hd
    show (stripU d.1,
        if d.1 ∈ nums then scaleECol (ECol.ind d.2) else passECol (ECol.ind d.2))
      = (stripU d.1, PCol.ind d.2)
    rw [if_neg (hdum nc hnc d hd)]
    rfl

theorem prepCols_eq (t : Table) (h : modeRowExists (imputeNumT t) = true)
    (hnod : ((encodeTable (imputeCatT (imputeNumT t))).cols.map Prod.fst).Nodup) :
    prepCols t =
      ((imputeCatT (imputeNumT t)).numCols.map
        (fun nc => (stripU nc.1, PCol.num (scaleColV nc.2)))) ++
      ((imputeCatT (imputeNumT t)).catCols.flatMap (fun nc =>
        (dummyGroup nc.1 nc.2).map (fun d => (stripU d.1, PCol.ind d.2)))) := by
  unfold prepCols
  rw [preprocess_ok t h]
  exact renamed_scaled_cols _ _ (hnum_imputed t) (hdum_imputed t hnod)

theorem mem_prepCols_scaledNum (t : Table) (h : modeRowExists (imputeNumT t) = true)
    (nc : String × List NCell) (hnc : nc ∈ (imputeCatT (imputeNumT t)).numCols) :
    (stripU nc.1, PCol.num (scaleColV nc.2)) ∈ prepCols t := by
  unfold prepCols
  rw [preprocess_ok t h]
  show _ ∈ (renameP (scaleETable (t.numCols.map Prod.fst)
      (encodeTable (imputeCatT (imputeNumT t))))).cols
  have he : (nc.1, ECol.num nc.2) ∈ (encodeTable (imputeCatT (imputeNumT t))).cols := by
    unfold encodeTable
    exact List.mem_append.mpr (Or.inl (List.mem_map.mpr ⟨nc, hnc, rfl⟩))
  unfold renameP scaleETable
  apply List.mem_map.mpr
  refine ⟨(nc.1, if nc.1 ∈ t.numCols.map Prod.fst
      then scaleECol (ECol.num nc.2) else passECol (ECol.num nc.2)),
    List.mem_map.mpr ⟨(nc.1, ECol.num nc.2), he, rfl⟩, ?_⟩
  show (stripU nc.1, _) = _
  rw [if_pos (hnum_imputed t nc hnc)]
  rfl

/-! ### Mode computation -/

theorem strLe_total2 (a b : String) (h : strLe a b = false) : strLe b a = true := by
  rcases strLe_total a b with h2 | h2
  · rw [h] at h2
    exact absurd h2 (by simp)
  · exact h2

theorem foldr_max_mem (l : List Nat) (h : l ≠ []) : l.foldr max 0 ∈ l := by
  induction l with
  | nil => exact absurd rfl h
  | cons a t ih =>
    by_cases ht : t = []
    · subst ht; simp
    · simp only [List.foldr]
      rcases Nat.le_total a (t.foldr max 0) with hle | hle
      · rw [Nat.max_eq_right hle]
        exact List.mem_cons_of_mem a (ih ht)
      · rw [Nat.max_eq_left hle]
        exact List.mem_cons_self a t

theorem le_foldr_max (l : List Nat) (x : Nat) (hx : x ∈ l) : x ≤ l.foldr max 0 := by
  induction l with
  | nil => simp at hx
  | cons a t ih =>
    simp only [List.foldr]
    rcases List.mem_cons.mp hx with rfl | hx2
    · exact Nat.le_max_left _ _
    · exact Nat.le_trans (ih hx2) (Nat.le_max_right _ _)

theorem count_le_maxCnt (l : List String) (v : String) (hv : v ∈ l) :
    l.count v ≤ maxCnt l := by
  have hmem : l.count v ∈ (dedupF l).map (fun w => l.count w) :=
    List.mem_map.mpr ⟨v, (mem_dedupF l v).mpr hv, rfl⟩
  exact le_foldr_max _ _ hmem

theorem mem_modesSorted (vals : List CCell) (v : String) :
    v ∈ modesSorted vals ↔
      (v ∈ dedupF (observedS vals) ∧
       (observedS vals).count v = maxCnt (observedS vals)) := by
  unfold modesSorted
  rw [mem_sortLe]
  simp [List.mem_filter]

theorem modesSorted_ne_nil (vals : List CCell) (h : observedS vals ≠ []) :
    modesSorted vals ≠ [] := by
  have hd : dedupF (observedS vals) ≠ [] := by
    cases hobs : observedS vals with
    | nil => exact absurd hobs h
    | cons a s => simp [dedupF]
  have hmap : ((dedupF (observedS vals)).map
      (fun v => (observedS vals).count v)) ≠ [] := by simp [hd]
  have hmem := foldr_max_mem _ hmap
  rcases List.mem_map.mp hmem with ⟨v, hv, hcv⟩
  intro hc
  have hvm : v ∈ modesSorted vals := (mem_modesSorted vals v).mpr ⟨hv, hcv⟩
  rw [hc] at hvm
  exact absurd hvm (List.not_mem_nil v)

theorem modeHead_some (vals : List CCell) (h : observedS vals ≠ []) :
    ∃ m, modeHead vals = some m := by
  cases hm : modesSorted vals with
  | nil => exact absurd hm (modesSorted_ne_nil vals h)
  | cons x s => exact ⟨x, by simp [modeHead, hm]⟩

theorem modeHead_props (vals : List CCell) (m : String) (hm : modeHead vals = some m) :
    m ∈ observedS vals ∧
    (observedS vals).count m = maxCnt (observedS vals) ∧
    (∀ w, w ∈ observedS vals →
      (observedS vals).count w = maxCnt (observedS vals) → strLe m w = true) := by
  unfold modeHead at hm
  have hmem : m ∈ modesSorted vals := List.mem_of_mem_head? (Option.mem_def.mpr hm)
  rcases (mem_modesSorted vals m).mp hmem with ⟨hd, hc⟩
  refine ⟨(mem_dedupF _ _).mp hd, hc, ?_⟩
  intro w hw hcw
  have hwm : w ∈ modesSorted vals := (mem_modesSorted vals w).mpr ⟨(mem_dedupF _ _).mpr hw, hcw⟩
  unfold modesSorted at hm hwm
  exact sortLe_head_le strLe strLe_total2 strLe_trans _ m hm w hwm

theorem mem_catCols (t : Table) (n : String) (vs : List CCell)
    (h : (n, Col.cat vs) ∈ t.cols) : (n, vs) ∈ t.catCols := by
  unfold Table.catCols
  exact List.mem_filterMap.mpr ⟨(n, Col.cat vs), h, rfl⟩

theorem mem_numCols (t : Table) (n : String) (vs : List NCell)
    (h : (n, Col.num vs) ∈ t.cols) : (n, vs) ∈ t.numCols := by
  unfold Table.numCols
  exact List.mem_filterMap.mpr ⟨(n, Col.num vs), h, rfl⟩

theorem modeRowExists_of_cat (t : Table) (n : String) (vs : List CCell)
    (h : (n, Col.cat vs) ∈ t.cols) (hne : (observedS vs).isEmpty = false) :
    modeRowExists (imputeNumT t) = true := by
  unfold modeRowExists
  rw [catCols_imputeNumT]
  apply List.any_eq_true.mpr
  exact ⟨(n, vs), mem_catCols t n vs h, by simp [hne]⟩

/-! ### Missing-free tables (claim C1) -/

theorem map_eq_self_of_forall {α : Type} (f : α → α) (l : List α)
    (h : ∀ x ∈ l, f x = x) : l.map f = l := by
  induction l with
  | nil => rfl
  | cons a t ih =>
    rw [List.map_cons, h a (List.mem_cons_self a t),
      ih (fun x hx => h x (List.mem_cons_of_mem a hx))]

theorem impNumCol_missingFree (c : Col) (h : c.missingFreeRaw = true) :
    impNumCol c = c := by
  cases c with
  | cat v => rfl
  | num v =>
    simp only [impNumCol, Col.num.injEq]
    apply map_eq_self_of_forall
    intro x hx
    have hxs := (List.all_eq_true.mp (by simpa [Col.missingFreeRaw] using h)) x hx
    cases x with
    | none => simp at hxs
    | some q => rfl

theorem impCatCol_missingFree (c : Col) (h : c.missingFreeRaw = true) :
    impCatCol c = c := by
  cases c with
  | num v => rfl
  | cat v =>
    simp only [impCatCol, Col.cat.injEq]
    apply map_eq_self_of_forall
    intro x hx
    have hxs := (List.all_eq_true.mp (by simpa [Col.missingFreeRaw] using h)) x hx
    cases x with
    | none => simp at hxs
    | some q => rfl

theorem imputeNumT_noMissing (t : Table) (h : t.noMissing = true) :
    imputeNumT t = t := by
  cases t with
  | mk cols =>
    unfold imputeNumT
    congr 1
    apply map_eq_self_of_forall
    intro nc hnc
    have hall := List.all_eq_true.mp
      (show cols.all (fun nc => nc.2.missingFreeRaw) = true from h)
    rw [impNumCol_missingFree nc.2 (hall nc hnc)]

theorem imputeCatT_noMissing (t : Table) (h : t.noMissing = true) :
    imputeCatT t = t := by
  cases t with
  | mk cols =>
    unfold imputeCatT
    congr 1
    apply map_eq_self_of_forall
    intro nc hnc
    have hall := List.all_eq_true.mp
      (show cols.all (fun nc => nc.2.missingFreeRaw) = true from h)
    rw [impCatCol_missingFree nc.2 (hall nc hnc)]

/-! ### Claim C1 -/

/-- Claim C1 counterexample: `preprocess_data` does NOT leave its argument
table unchanged.  On the table with the single categorical column
c = [a, a, NaN], the two in-place fillna assignments overwrite the missing
cell with the mode "a", so the caller's table differs after the call. -/
theorem C1_counterexample :
    preprocessArg ⟨[("c", Col.cat [some "a", some "a", none])]⟩
      ≠ ⟨[("c", Col.cat [some "a", some "a", none])]⟩ := by decide

/-- Claim C1 amended: `preprocess_data` mutates its argument in place through
the two fillna assignments, overwriting every Missing cell with the imputed
value; when the input table contains no Missing marker the argument's columns
and cell values are unchanged by the call. -/
theorem C1_amended (t : Table) (h : t.noMissing = true) : preprocessArg t = t := by
  unfold preprocessArg
  rw [imputeNumT_noMissing t h]
  by_cases hm : modeRowExists t = true
  · rw [if_pos hm]
    exact imputeCatT_noMissing t h
  · rw [if_neg hm]

/-- Witness for C1_amended at a concrete missing-free table. -/
theorem C1_witness :
    preprocessArg ⟨[("k", Col.num [some 1]), ("c", Col.cat [some "a"])]⟩
      = ⟨[("k", Col.num [some 1]), ("c", Col.cat [some "a"])]⟩ :=
  C1_amended _ (by decide)

/-! ### Claim C6 -/

/-- Claim C6 counterexample: on the column [b, a, NaN] the values b and a are
tied for most frequent; the first-encountered tied value is b, but the code
fills the missing cell with a — `mode()` returns the modes sorted ascending
and `.iloc[0]` therefore picks the lexicographically smallest, not the
first-encountered one. -/
theorem C6_counterexample :
    modeFirstEncountered [some "b", some "a", none] = some "b" ∧
    modeHead [some "b", some "a", none] = some "a" ∧
    (preprocessArg ⟨[("c", Col.cat [some "b", some "a", none])]⟩).cols
      = [("c", Col.cat [some "b", some "a", some "a"])] :=
  ⟨by decide, by decide, by decide⟩

/-- Claim C6 amended: for every Categorical column with at least one
non-missing value, imputation replaces each Missing marker with a most
frequent non-missing value of the column; when several values are tied for
most frequent, the value chosen is the LEXICOGRAPHICALLY SMALLEST tied value
(pandas mode() returns the modes sorted ascending and iloc[0] takes the
first), not the tied value occurring first in column order. -/
theorem C6_amended (t : Table) (n : String) (vs : List CCell)
    (hmem : (n, Col.cat vs) ∈ t.cols) (hne : (observedS vs).isEmpty = false) :
    ∃ m, modeHead vs = some m ∧
      m ∈ observedS vs ∧
      (∀ w, w ∈ observedS vs → (observedS vs).count w ≤ (observedS vs).count m) ∧
      (∀ w, w ∈ observedS vs →
        (observedS vs).count w = (observedS vs).count m → strLe m w = true) ∧
      (n, Col.cat (vs.map (fillCell (some m)))) ∈ (preprocessArg t).cols := by
  have hne2 : observedS vs ≠ [] := by
    intro hc
    rw [hc] at hne
    simp at hne
  obtain ⟨m, hm⟩ := modeHead_some vs hne2
  obtain ⟨hmo, hmc, hmin⟩ := modeHead_props vs m hm
  refine ⟨m, hm, hmo, ?_, ?_, ?_⟩
  · intro w hw
    rw [hmc]
    exact count_le_maxCnt _ w hw
  · intro w hw hcw
    exact hmin w hw (by rw [hcw, hmc])
  · have hrow := modeRowExists_of_cat t n vs hmem hne
    unfold preprocessArg
    rw [if_pos hrow]
    have h1 : (n, Col.cat vs) ∈ (imputeNumT t).cols := by
      unfold imputeNumT
      exact List.mem_map.mpr ⟨(n, Col.cat vs), hmem, rfl⟩
    have h2 : (n, Col.cat (vs.map (fillCell (modeHead vs))))
        ∈ (imputeCatT (imputeNumT t)).cols := by
      unfold imputeCatT
      exact List.mem_map.mpr ⟨(n, Col.cat vs), h1, rfl⟩
    rw [hm] at h2
    exact h2

/-- Witness for C6_amended at a concrete column [b, NaN, b, a]. -/
theorem C6_witness :
    ∃ m, modeHead [some "b", none, some "b", some "a"] = some m ∧
      m ∈ observedS [some "b", none, some "b", some "a"] ∧
      (∀ w, w ∈ observedS [some "b", none, some "b", some "a"] →
        (observedS [some "b", none, some "b", some "a"]).count w
          ≤ (observedS [some "b", none, some "b", some "a"]).count m) ∧
      (∀ w, w ∈ observedS [some "b", none, some "b", some "a"] →
        (observedS [some "b", none, some "b", some "a"]).count w
          = (observedS [some "b", none, some "b", some "a"]).count m →
        strLe m w = true) ∧
      ("c", Col.cat ([some "b", none, some "b", some "a"].map (fillCell (some m))))
        ∈ (preprocessArg ⟨[("c", Col.cat [some "b", none, some "b", some "a"])]⟩).cols :=
  C6_amended ⟨[("c", Col.cat [some "b", none, some "b", some "a"])]⟩ "c"
    [some "b", none, some "b", some "a"] (by decide) (by decide)

/-! ### Claim C10 -/

/-- Claim C10: on a table with no Categorical (object-dtype) column at all,
`preprocess_data` does not return a table: `mode()` of the empty categorical
selection has zero rows, so `.iloc[0]` raises IndexError — a failure outside
the spec's declared error kinds. -/
theorem C10_no_categorical_error (t : Table) (h : t.catCols = []) :
    preprocess_data t = Except.error PErr.indexError := by
  apply preprocess_err
  unfold modeRowExists
  rw [catCols_imputeNumT, h]
  rfl

/-- Witness for C10 at a concrete numerical-only table. -/
theorem C10_witness :
    preprocess_data ⟨[("n", Col.num [some 1])]⟩ = Except.error PErr.indexError :=
  C10_no_categorical_error _ (by decide)

/-! ### Claim C9 -/

/-- Claim C9: the dtype dispatch of `visualize_scatterplot` — (Categorical,
Categorical) gives a scatter color-grouped by the x column; (Categorical,
Numerical) a strip layout grouped by x; (Numerical, Categorical) a strip
layout grouped by y; (Numerical, Numerical) a plain scatter with no
grouping. -/
theorem C9_scatter_dispatch (t : Table) (x y : String) (cx cy : Col)
    (hx : lookupCol t x = some cx) (hy : lookupCol t y = some cy) :
    (cx.isCat = true → cy.isCat = true →
      visualize_scatterplot t x y = some (ScatterStrategy.scatter (some x))) ∧
    (cx.isCat = true → cy.isCat = false →
      visualize_scatterplot t x y = some (ScatterStrategy.strip (some x))) ∧
    (cx.isCat = false → cy.isCat = true →
      visualize_scatterplot t x y = some (ScatterStrategy.strip (some y))) ∧
    (cx.isCat = false → cy.isCat = false →
      visualize_scatterplot t x y = some (ScatterStrategy.scatter none)) := by
  unfold visualize_scatterplot
  rw [hx, hy]
  refine ⟨?_, ?_, ?_, ?_⟩ <;> intro h1 h2 <;> simp [h1, h2]

/-- Witness for C9 at a table with one categorical and one numerical column. -/
theorem C9_witness :
    ((Col.cat [some "a"]).isCat = true → (Col.num [some 1]).isCat = true →
      visualize_scatterplot ⟨[("c", Col.cat [some "a"]), ("k", Col.num [some 1])]⟩ "c" "k"
        = some (ScatterStrategy.scatter (some "c"))) ∧
    ((Col.cat [some "a"]).isCat = true → (Col.num [some 1]).isCat = false →
      visualize_scatterplot ⟨[("c", Col.cat [some "a"]), ("k", Col.num [some 1])]⟩ "c" "k"
        = some (ScatterStrategy.strip (some "c"))) ∧
    ((Col.cat [some "a"]).isCat = false → (Col.num [some 1]).isCat = true →
      visualize_scatterplot ⟨[("c", Col.cat [some "a"]), ("k", Col.num [some 1])]⟩ "c" "k"
        = some (ScatterStrategy.strip (some "k"))) ∧
    ((Col.cat [some "a"]).isCat = false → (Col.num [some 1]).isCat = false →
      visualize_scatterplot ⟨[("c", Col.cat [some "a"]), ("k", Col.num [some 1])]⟩ "c" "k"
        = some (ScatterStrategy.scatter none)) :=
  C9_scatter_dispatch ⟨[("c", Col.cat [some "a"]), ("k", Col.num [some 1])]⟩ "c" "k"
    (Col.cat [some "a"]) (Col.num [some 1]) (by decide) (by decide)

/-! ### Claim C5 -/

/-- Claim C5 counterexample: `visualize_pie_chart` has no dtype check at all.
On the numerical column [1, 1, 2] it produces the pie chart with slices
(1, count 2) and (2, count 1) instead of failing with any
UnsupportedVisualization condition. -/
theorem C5_counterexample :
    visualize_pie_chart ⟨[("n", Col.num [some 1, some 1, some 2])]⟩ "n"
      = some [(PieVal.q 1, 2), (PieVal.q 2, 1)] := by decide

/-- Claim C5 amended: requesting a pie chart of a Numerical column does NOT
fail — `visualize_pie_chart` performs no type check and returns a pie chart
for every present column: one slice per distinct non-missing value, the
slice counts summing to the number of non-missing cells. -/
theorem C5_amended (t : Table) (n : String) (vs : List NCell)
    (h : lookupCol t n = some (Col.num vs)) :
    ∃ s, visualize_pie_chart t n = some s ∧
      s.length = (dedupF (somes vs)).length ∧
      (s.map Prod.snd).sum = (somes vs).length := by
  refine ⟨pieSlices (Col.num vs), ?_, ?_, ?_⟩
  · unfold visualize_pie_chart
    rw [h]
    rfl
  · unfold pieSlices valueCounts
    rw [List.length_map, (perm_sortLe _ _).length_eq, List.length_map]
  · unfold pieSlices valueCounts
    rw [List.map_map]
    have hcomp : (Prod.snd ∘ fun p : ℚ × Nat => ((PieVal.q p.1, p.2) : PieVal × Nat))
        = fun p : ℚ × Nat => p.2 := by
      funext p
      rfl
    rw [hcomp]
    have hperm := (perm_sortLe (fun a b : ℚ × Nat => decide (b.2 ≤ a.2))
      ((dedupF (somes vs)).map (fun v => (v, (somes vs).count v)))).map
        (fun p : ℚ × Nat => p.2)
    rw [hperm.sum_eq, List.map_map]
    have hcomp2 : ((fun p : ℚ × Nat => p.2) ∘ fun v : ℚ => (v, (somes vs).count v))
        = fun v : ℚ => (somes vs).count v := by
      funext v
      rfl
    rw [hcomp2]
    exact sum_count_dedupF (somes vs)

/-- Witness for C5_amended at the numerical column [5, NaN, 5]. -/
theorem C5_witness :
    ∃ s, visualize_pie_chart ⟨[("m", Col.num [some 5, none, some 5])]⟩ "m" = some s ∧
      s.length = (dedupF (somes [some (5:ℚ), none, some 5])).length ∧
      (s.map Prod.snd).sum = (somes [some (5:ℚ), none, some 5]).length :=
  C5_amended ⟨[("m", Col.num [some 5, none, some 5])]⟩ "m"
    [some 5, none, some 5] (by decide)

/-! ### Claim C8 -/

/-- Claim C8 counterexample: the categorical columns a = [b_c] and a_b = [c]
both encode to an indicator column named a_b_c; `preprocess_data` raises no
NameCollision — it silently returns a table whose column list carries the
duplicated name (abc twice, after the underscore-stripping rename). -/
theorem C8_counterexample :
    (prepCols ⟨[("a", Col.cat [some "b_c"]), ("a_b", Col.cat [some "c"])]⟩).map Prod.fst
      = ["abc", "abc"] ∧
    ¬ (["abc", "abc"] : List String).Nodup :=
  ⟨by rfl, by decide⟩

/-- Claim C8 amended: `preprocess_data` performs no name-collision check and
defines no NameCollision condition: the returned table's column names are
exactly the encoded frame's names with underscores stripped, verbatim and in
order, duplicates preserved (pandas keeps duplicate labels side by side). -/
theorem C8_amended (t : Table) (himp : modeRowExists (imputeNumT t) = true) :
    (prepCols t).map Prod.fst
      = ((encodeTable (imputeCatT (imputeNumT t))).cols.map Prod.fst).map stripU := by
  unfold prepCols
  rw [preprocess_ok t himp]
  show (renameP (scaleETable (t.numCols.map Prod.fst)
      (encodeTable (imputeCatT (imputeNumT t))))).cols.map Prod.fst = _
  rw [renameP_names, scaleETable_names]

/-- Witness for C8_amended at a small two-column table. -/
theorem C8_witness :
    (prepCols ⟨[("w", Col.num [some 1]), ("d", Col.cat [some "e"])]⟩).map Prod.fst
      = ((encodeTable (imputeCatT (imputeNumT
          ⟨[("w", Col.num [some 1]), ("d", Col.cat [some "e"])]⟩))).cols.map
            Prod.fst).map stripU :=
  C8_amended ⟨[("w", Col.num [some 1]), ("d", Col.cat [some "e"])]⟩ (by decide)

/-! ### Mean, variance and scaling values -/

theorem meanQ_eq (vals : List NCell) :
    meanQ vals = if (somes vals).length = 0 then none
      else some ((somes vals).sum / ((somes vals).length : ℚ)) := rfl

theorem sampleVar_eq (vals : List NCell) :
    sampleVar vals = if (somes vals).length < 2 then none
      else some ((((somes vals).map (fun x =>
          (x - (somes vals).sum / ((somes vals).length : ℚ)) *
          (x - (somes vals).sum / ((somes vals).length : ℚ)))).sum)
        / (((somes vals).length : ℚ) - 1)) := rfl

theorem fillCell_none {α : Type} (c : Option α) : fillCell none c = c := by
  cases c <;> rfl

theorem meanQ_none_iff (vs : List NCell) : meanQ vs = none ↔ somes vs = [] := by
  rw [meanQ_eq]
  by_cases h : (somes vs).length = 0
  · rw [if_pos h]
    simp [List.length_eq_zero.mp h]
  · rw [if_neg h]
    constructor
    · intro hc
      exact absurd hc (by simp)
    · intro hc
      rw [hc] at h
      simp at h

theorem fillMean_of_mean_none (vs : List NCell) (h : meanQ vs = none) :
    fillMean vs = vs := by
  unfold fillMean
  rw [h]
  apply map_eq_self_of_forall
  intro x _
  exact fillCell_none x

theorem meanQ_isSome_of_var (vs : List NCell) (q : ℚ) (h : sampleVar vs = some q) :
    ∃ m, meanQ vs = some m := by
  rw [sampleVar_eq] at h
  by_cases hl : (somes vs).length < 2
  · rw [if_pos hl] at h
    exact absurd h (by simp)
  · rw [meanQ_eq, if_neg (by omega)]
    exact ⟨_, rfl⟩

theorem fillMean_all_some (vs : List NCell) (m : ℚ) (h : meanQ vs = some m) :
    ∀ c ∈ fillMean vs, c.isSome = true := by
  intro c hc
  unfold fillMean at hc
  rcases List.mem_map.mp hc with ⟨x, _, hx⟩
  cases x with
  | none =>
    rw [← hx]
    simp [fillCell, h]
  | some v =>
    rw [← hx]
    rfl

theorem scaleColV_all_some (ws : List NCell) (q : ℚ) (hv : sampleVar ws = some q)
    (hq : q ≠ 0) (m : ℚ) (hm : meanQ ws = some m)
    (hall : ∀ c ∈ ws, c.isSome = true) :
    ∀ r ∈ scaleColV ws, r.isSome = true := by
  intro r hr
  unfold scaleColV at hr
  rcases List.mem_map.mp hr with ⟨x, hx, hxr⟩
  have hxs := hall x hx
  cases x with
  | none => simp at hxs
  | some xv =>
    rw [← hxr, hm, hv]
    simp [scaleCell, hq]

theorem map_const_replicate {α β : Type} (l : List α) (b : β) :
    l.map (fun _ => b) = List.replicate l.length b := by
  induction l with
  | nil => rfl
  | cons a t ih => simp [List.replicate_succ, ih]

theorem somes_const (vs : List NCell) (c : ℚ) (h : ∀ x ∈ vs, x = some c) :
    somes vs = List.replicate vs.length c := by
  induction vs with
  | nil => rfl
  | cons a t ih =>
    have ha := h a (List.mem_cons_self a t)
    subst ha
    rw [show somes (some c :: t) = c :: somes t from rfl]
    rw [ih (fun x hx => h x (List.mem_cons_of_mem _ hx))]
    rfl

theorem replicate_sum (k : Nat) (c : ℚ) : (List.replicate k c).sum = k * c := by
  induction k with
  | zero => simp
  | succ j ih =>
    rw [List.replicate_succ, List.sum_cons, ih]
    push_cast
    ring

theorem meanQ_const (vs : List NCell) (c : ℚ) (h : ∀ x ∈ vs, x = some c)
    (hne : vs ≠ []) : meanQ vs = some c := by
  have hs := somes_const vs c h
  have hlen : vs.length ≠ 0 := fun hc => hne (List.length_eq_zero.mp hc)
  rw [meanQ_eq, hs]
  simp only [List.length_replicate]
  rw [if_neg hlen, replicate_sum]
  congr 1
  rw [mul_comm, mul_div_assoc, div_self (Nat.cast_ne_zero.mpr hlen), mul_one]

theorem sampleVar_const (vs : List NCell) (c : ℚ) (h : ∀ x ∈ vs, x = some c)
    (hlen : 2 ≤ vs.length) : sampleVar vs = some 0 := by
  have hs := somes_const vs c h
  rw [sampleVar_eq, hs]
  simp only [List.length_replicate]
  rw [if_neg (by omega), replicate_sum]
  have hc : (vs.length : ℚ) ≠ 0 := Nat.cast_ne_zero.mpr (by omega)
  have hmean : (vs.length : ℚ) * c / (vs.length : ℚ) = c := by
    rw [mul_comm, mul_div_assoc, div_self hc, mul_one]
  rw [hmean, List.map_replicate]
  simp

theorem scaleColV_var_none (vs : List NCell) (hv : sampleVar vs = none) :
    scaleColV vs = List.replicate vs.length none := by
  unfold scaleColV
  rw [hv]
  have hcell : ∀ x ∈ vs, scaleCell (meanQ vs) none x = (fun _ => (none : Option ℝ)) x := by
    intro x hx
    cases hmQ : meanQ vs <;> cases x <;> rfl
  rw [List.map_congr_left hcell, map_const_replicate]

theorem scaleColV_const (vs : List NCell) (c : ℚ) (h : ∀ x ∈ vs, x = some c) :
    scaleColV vs = List.replicate vs.length none := by
  by_cases hlen : vs.length < 2
  · apply scaleColV_var_none
    have hsl : (somes vs).length < 2 := by
      rw [somes_const vs c h, List.length_replicate]
      exact hlen
    rw [sampleVar_eq, if_pos hsl]
  · have hne : vs ≠ [] := by
      intro hc
      rw [hc] at hlen
      simp at hlen
    have hm := meanQ_const vs c h hne
    have hv := sampleVar_const vs c h (by omega)
    unfold scaleColV
    rw [hm, hv]
    have hcell : ∀ x ∈ vs, scaleCell (some c) (some 0) x = (fun _ => (none : Option ℝ)) x := by
      intro x hx
      rw [h x hx]
      simp [scaleCell]
    rw [List.map_congr_left hcell, map_const_replicate]

/-! ### Claim C2 -/

/-- Claim C2 counterexample: on the table with the all-Missing numerical
column n = [NaN] (and a categorical column so imputation succeeds), the mean
of n is NaN, fillna leaves the hole, and scaling keeps it NaN: the returned
table still contains a Missing marker. -/
theorem C2_counterexample :
    prepMissingFree ⟨[("n", Col.num [none]), ("c", Col.cat [some "a"])]⟩
      = some false := by rfl

/-- Claim C2 amended: every column of the table `preprocess_data` returns
contains zero Missing markers PROVIDED (a) every numerical column, after
mean imputation, has a defined nonzero sample variance (at least two values,
not all equal), and (b) the encoded column names are distinct, so that no
get_dummies indicator collides with a numerical column name.  Without (a) —
an all-Missing numerical column, a constant column, or a single-row table —
the scaled column consists of Missing markers (NaN); without (b) the
name-based scaling z-scores the colliding indicator, whose constant 0/1
values can again produce 0/0 = NaN. -/
theorem C2_amended (t : Table)
    (himp : modeRowExists (imputeNumT t) = true)
    (hnod : ((encodeTable (imputeCatT (imputeNumT t))).cols.map Prod.fst).Nodup)
    (hvar : ∀ nc ∈ t.numCols, (sampleVar (fillMean nc.2)).getD 0 ≠ 0) :
    prepMissingFree t = some true := by
  unfold prepMissingFree
  rw [preprocess_ok t himp]
  show some (PTable.missingFree
    (renameP (scaleETable (t.numCols.map Prod.fst)
      (encodeTable (imputeCatT (imputeNumT t)))))) = some true
  congr 1
  unfold PTable.missingFree
  rw [renamed_scaled_cols _ _ (hnum_imputed t) (hdum_imputed t hnod)]
  apply List.all_eq_true.mpr
  intro nc hnc
  rcases List.mem_append.mp hnc with hA | hB
  · rcases List.mem_map.mp hA with ⟨mc, hmc, hmceq⟩
    rw [numCols_imputeCatT, numCols_imputeNumT] at hmc
    rcases List.mem_map.mp hmc with ⟨oc, hoc, hoceq⟩
    have hv0 := hvar oc hoc
    rcases hq : sampleVar (fillMean oc.2) with _ | q
    · rw [hq] at hv0
      simp at hv0
    · have hqne : q ≠ 0 := by
        rw [hq] at hv0
        simpa using hv0
      obtain ⟨m, hm⟩ := meanQ_isSome_of_var _ q hq
      have hmo : ∃ m0, meanQ oc.2 = some m0 := by
        rcases hmo0 : meanQ oc.2 with _ | m0
        · have hfm := fillMean_of_mean_none oc.2 hmo0
          have hse : somes oc.2 = [] := (meanQ_none_iff oc.2).mp hmo0
          rw [hfm, sampleVar_eq, hse] at hq
          simp at hq
        · exact ⟨m0, rfl⟩
      obtain ⟨m0, hm0⟩ := hmo
      have hcells := fillMean_all_some oc.2 m0 hm0
      have hsome := scaleColV_all_some (fillMean oc.2) q hq hqne m hm hcells
      rw [← hmceq, ← hoceq]
      simp only [PCol.missingFreeCol]
      exact List.all_eq_true.mpr (fun r hr => hsome r hr)
  · rcases List.mem_flatMap.mp hB with ⟨cc, hcc, hin⟩
    rcases List.mem_map.mp hin with ⟨d, hd, hdeq⟩
    rw [← hdeq]
    rfl

/-- Evaluation of the variance hypothesis of C2_amended at the witness
table: the column [0, 2] has sample variance 2. -/
theorem C2_witness_var :
    ∀ nc ∈ (⟨[("k", Col.num [some 0, some 2]),
        ("c", Col.cat [some "a", some "b"])]⟩ : Table).numCols,
      (sampleVar (fillMean nc.2)).getD 0 ≠ 0 := by
  intro nc hnc
  have hN : (⟨[("k", Col.num [some 0, some 2]),
      ("c", Col.cat [some "a", some "b"])]⟩ : Table).numCols
      = [("k", [some (0:ℚ), some 2])] := rfl
  rw [hN] at hnc
  have hnc2 : nc = ("k", [some (0:ℚ), some 2]) := by
    simpa using hnc
  subst hnc2
  have h1 : fillMean [some (0:ℚ), some 2] = [some 0, some 2] := rfl
  rw [h1]
  have hso : somes [some (0:ℚ), some 2] = [0, 2] := rfl
  have h2 : sampleVar [some (0:ℚ), some 2] = some 2 := by
    rw [sampleVar_eq, hso]
    norm_num
  rw [h2]
  norm_num

/-- Witness for C2_amended at a table whose numerical column is [0, 2]. -/
theorem C2_witness :
    prepMissingFree ⟨[("k", Col.num [some 0, some 2]),
      ("c", Col.cat [some "a", some "b"])]⟩ = some true :=
  C2_amended _ (by decide) (by decide) C2_witness_var

/-! ### Claim C3 -/

/-- Claim C3 counterexample: on the constant numerical column k = [1, 1] the
code does NOT surface any ZeroVariance condition: std is 0, (x - mean)/std is
0/0 = NaN, and preprocess_data silently returns the table with k entirely
NaN (Missing). -/
theorem C3_counterexample :
    prepCols ⟨[("k", Col.num [some 1, some 1]), ("c", Col.cat [some "a", some "b"])]⟩
      = [("k", PCol.num [none, none]),
         ("ca", PCol.ind [1, 0]), ("cb", PCol.ind [0, 1])] := by
  rw [prepCols_eq _ (by decide) (by decide)]
  have hnum : (imputeCatT (imputeNumT ⟨[("k", Col.num [some 1, some 1]),
      ("c", Col.cat [some "a", some "b"])]⟩)).numCols
      = [("k", [some (1:ℚ), some 1])] := by rfl
  have hcat : (imputeCatT (imputeNumT ⟨[("k", Col.num [some 1, some 1]),
      ("c", Col.cat [some "a", some "b"])]⟩)).catCols
      = [("c", [some "a", some "b"])] := by rfl
  rw [hnum, hcat]
  have hsc : scaleColV [some (1:ℚ), some 1] = [none, none] :=
    scaleColV_const [some 1, some 1] 1 (by decide)
  simp only [List.map_cons, List.map_nil, hsc]
  rfl

/-- Claim C3 amended: for every Numerical column whose values are all equal
(and non-missing), `preprocess_data` does not surface a ZeroVariance
condition; it silently returns a table in which that column consists
entirely of Missing markers (NaN from 0/0, or NaN std for a single row). -/
theorem C3_amended (t : Table) (n : String) (vs : List NCell) (c : ℚ)
    (hmem : (n, Col.num vs) ∈ t.cols) (hconst : ∀ x ∈ vs, x = some c)
    (himp : modeRowExists (imputeNumT t) = true) :
    (stripU n, PCol.num (List.replicate vs.length none)) ∈ prepCols t := by
  have hfm : fillMean vs = vs := by
    unfold fillMean
    apply map_eq_self_of_forall
    intro x hx
    rw [hconst x hx]
    rfl
  have hnum : (n, vs) ∈ (imputeCatT (imputeNumT t)).numCols := by
    rw [numCols_imputeCatT, numCols_imputeNumT]
    apply List.mem_map.mpr
    refine ⟨(n, vs), mem_numCols t n vs hmem, ?_⟩
    rw [hfm]
  have hscale : scaleColV vs = List.replicate vs.length none :=
    scaleColV_const vs c hconst
  have hm := mem_prepCols_scaledNum t himp (n, vs) hnum
  rw [hscale] at hm
  exact hm

/-- Witness for C3_amended at the constant column [3, 3, 3]. -/
theorem C3_witness :
    (stripU "z", PCol.num (List.replicate [some (3:ℚ), some 3, some 3].length none))
      ∈ prepCols ⟨[("z", Col.num [some 3, some 3, some 3]),
          ("u", Col.cat [some "p", some "p"])]⟩ :=
  C3_amended ⟨[("z", Col.num [some 3, some 3, some 3]),
      ("u", Col.cat [some "p", some "p"])]⟩ "z"
    [some 3, some 3, some 3] 3 (by decide) (by decide) (by decide)

/-! ### Claim C7 -/

theorem ptable_eq_of_cols (p q : PTable) (h : p.cols = q.cols) : p = q := by
  cases p
  cases q
  simpa using h

/-- Claim C7 counterexample: on the table with numerical column k_v = [1, 2]
and categorical column k = [v, w], get_dummies creates an indicator also
named k_v, and the name-based selection `encoded_data[numerical_columns]`
picks BOTH k_v columns: the indicator is z-scored too.  In the returned
frame the indicator position is a scaled numeric column (isInd = false),
not an unscaled 0/1 indicator — refuting the claim that indicator columns
are always left unscaled. -/
theorem C7_counterexample :
    ((encodeTable (imputeCatT (imputeNumT
        ⟨[("k_v", Col.num [some 1, some 2]),
          ("k", Col.cat [some "v", some "w"])]⟩))).cols.map Prod.fst
      = ["k_v", "k_v", "k_w"]) ∧
    ((prepCols ⟨[("k_v", Col.num [some 1, some 2]),
        ("k", Col.cat [some "v", some "w"])]⟩).map
          (fun nc => (nc.1, nc.2.isInd))
      = [("kv", false), ("kv", false), ("kw", true)]) :=
  ⟨by rfl, by rfl⟩

/-- Claim C7 amended: the code scales BY NAME — every encoded column whose
label is a pre-encoding numerical column name is z-scored.  Provided no
get_dummies indicator name collides with a numerical column name, this is
exactly the columns classified Numerical in the pre-encoding table — each
carries `scaleColV (fillMean vals)`, i.e. (x - mean)/std of the mean-imputed
original values (sample std) — and the 0/1 indicator columns are passed
through unscaled (the `PCol.ind` payloads are the `dummyGroup` columns
verbatim).  At a name collision the code z-scores the colliding indicator
too, as the counterexample shows. -/
theorem C7_amended (t : Table)
    (himp : modeRowExists (imputeNumT t) = true)
    (hnod : ((encodeTable (imputeCatT (imputeNumT t))).cols.map Prod.fst).Nodup) :
    preprocess_data t = Except.ok
      ⟨(t.numCols.map (fun nc =>
          (stripU nc.1, PCol.num (scaleColV (fillMean nc.2))))) ++
       ((imputeCatT (imputeNumT t)).catCols.flatMap
          (fun nc => (dummyGroup nc.1 nc.2).map
            (fun d => (stripU d.1, PCol.ind d.2))))⟩ := by
  rw [preprocess_ok t himp]
  congr 1
  apply ptable_eq_of_cols
  rw [renamed_scaled_cols _ _ (hnum_imputed t) (hdum_imputed t hnod)]
  congr 1
  rw [numCols_imputeCatT, numCols_imputeNumT, List.map_map]
  rfl

/-- Witness for C7_amended at a two-column table without name collisions. -/
theorem C7_witness :
    preprocess_data ⟨[("k", Col.num [some 1, some 2]),
        ("c", Col.cat [some "a", some "b"])]⟩ = Except.ok
      ⟨((⟨[("k", Col.num [some 1, some 2]),
          ("c", Col.cat [some "a", some "b"])]⟩ : Table).numCols.map (fun nc =>
          (stripU nc.1, PCol.num (scaleColV (fillMean nc.2))))) ++
       ((imputeCatT (imputeNumT ⟨[("k", Col.num [some 1, some 2]),
          ("c", Col.cat [some "a", some "b"])]⟩)).catCols.flatMap
          (fun nc => (dummyGroup nc.1 nc.2).map
            (fun d => (stripU d.1, PCol.ind d.2))))⟩ :=
  C7_amended ⟨[("k", Col.num [some 1, some 2]), ("c", Col.cat [some "a", some "b"])]⟩
    (by decide) (by decide)

/-! ### One-hot encoding structure (claim C4) -/

theorem nodup_sortedDistinct (l : List String) : (sortedDistinct l).Nodup := by
  unfold sortedDistinct
  exact ((perm_sortLe strLe (dedupF l)).nodup_iff).mpr (nodup_dedupF l)

theorem mem_sortedDistinct (l : List String) (a : String) :
    a ∈ sortedDistinct l ↔ a ∈ l := by
  unfold sortedDistinct
  rw [mem_sortLe, mem_dedupF]

theorem sorted_sortedDistinct (l : List String) :
    (sortedDistinct l).Pairwise (fun a b => strLe a b = true) :=
  pairwise_sortLe strLe strLe_total2 strLe_trans _

theorem sortedDistinct_ext (l1 l2 : List String) (h : ∀ a, a ∈ l1 ↔ a ∈ l2) :
    sortedDistinct l1 = sortedDistinct l2 := by
  have hperm : (sortedDistinct l1).Perm (sortedDistinct l2) :=
    (List.perm_ext_iff_of_nodup (nodup_sortedDistinct l1)
      (nodup_sortedDistinct l2)).mpr
      (fun a => by rw [mem_sortedDistinct, mem_sortedDistinct]; exact h a)
  haveI : IsAntisymm String (fun a b => strLe a b = true) := ⟨strLe_antisymm⟩
  exact List.eq_of_perm_of_sorted hperm (sorted_sortedDistinct l1)
    (sorted_sortedDistinct l2)

theorem mem_observed_of_cell (ws : List CCell) (w : String) (h : some w ∈ ws) :
    w ∈ observedS ws :=
  List.mem_filterMap.mpr ⟨some w, h, rfl⟩

theorem mem_observed_fill (vs : List CCell) (m : String) (hm : m ∈ observedS vs)
    (a : String) :
    a ∈ observedS (vs.map (fillCell (some m))) ↔ a ∈ observedS vs := by
  constructor
  · intro h
    rcases List.mem_filterMap.mp h with ⟨cell, hcell, heq⟩
    rcases List.mem_map.mp hcell with ⟨x, hx, hxf⟩
    cases x with
    | none =>
      have hcm : cell = some m := hxf.symm
      have hma : m = a := by
        rw [hcm] at heq
        simpa using heq
      rw [← hma]
      exact hm
    | some w =>
      have hcw : cell = some w := hxf.symm
      have hwa : w = a := by
        rw [hcw] at heq
        simpa using heq
      rw [← hwa]
      exact mem_observed_of_cell vs w hx
  · intro h
    rcases List.mem_filterMap.mp h with ⟨cell, hcell, heq⟩
    have hca : cell = some a := by simpa using heq
    subst hca
    exact List.mem_filterMap.mpr
      ⟨some a, List.mem_map.mpr ⟨some a, hcell, rfl⟩, rfl⟩

theorem sortedDistinct_fill (vs : List CCell) (m : String) (hm : m ∈ observedS vs) :
    sortedDistinct (observedS (vs.map (fillCell (some m))))
      = sortedDistinct (observedS vs) :=
  sortedDistinct_ext _ _ (mem_observed_fill vs m hm)

theorem fillCat_cells (vs : List CCell) (m : String) :
    ∀ cell ∈ vs.map (fillCell (some m)), ∃ w, cell = some w := by
  intro cell hcell
  rcases List.mem_map.mp hcell with ⟨x, _, hx⟩
  cases x with
  | none => exact ⟨m, hx.symm⟩
  | some w => exact ⟨w, hx.symm⟩

theorem dummyCol_01 (v : String) (vals : List CCell) :
    ∀ x ∈ dummyCol v vals, x = 0 ∨ x = 1 := by
  intro x hx
  rcases List.mem_map.mp hx with ⟨c, _, hc⟩
  by_cases h : c = some v
  · right
    rw [← hc, if_pos h]
  · left
    rw [← hc, if_neg h]

theorem zipWith_map_same {α β γ δ : Type} (h : β → γ → δ) (f : α → β) (g : α → γ)
    (l : List α) :
    List.zipWith h (l.map f) (l.map g) = l.map (fun x => h (f x) (g x)) := by
  induction l with
  | nil => rfl
  | cons a t ih => simp [ih]

theorem sumCols_indicator (L : List String) (ws : List CCell) :
    sumCols (L.map (fun v => dummyCol v ws)) ws.length
      = ws.map (fun cell => (L.map (fun v => if cell = some v then (1:ℚ) else 0)).sum) := by
  induction L with
  | nil => exact (map_const_replicate ws (0:ℚ)).symm
  | cons v L ih =>
    show addV (dummyCol v ws) (sumCols (L.map (fun v => dummyCol v ws)) ws.length) = _
    rw [ih]
    unfold addV dummyCol
    rw [zipWith_map_same]
    rfl

theorem sum_indicator_one (c : String) : ∀ L : List String, L.Nodup → c ∈ L →
    (L.map (fun v => if (some c : CCell) = some v then (1:ℚ) else 0)).sum = 1 := by
  intro L
  induction L with
  | nil =>
    intro _ hc
    simp at hc
  | cons b t ih =>
    intro hnd hc
    rcases List.nodup_cons.mp hnd with ⟨hb, ht⟩
    by_cases hcb : c = b
    · subst hcb
      simp only [List.map_cons, List.sum_cons, if_pos rfl]
      have hz : ∀ v ∈ t,
          (if (some c : CCell) = some v then (1:ℚ) else 0) = (fun _ => (0:ℚ)) v := by
        intro v hv
        have hne : (some c : CCell) ≠ some v := by
          intro hcv
          have hc2 : c = v := by simpa using hcv
          exact hb (hc2 ▸ hv)
        rw [if_neg hne]
      rw [List.map_congr_left hz, map_const_replicate, replicate_sum]
      norm_num
    · have hct : c ∈ t := by
        rcases List.mem_cons.mp hc with h1 | h1
        · exact absurd h1 hcb
        · exact h1
      have hne : (some c : CCell) ≠ some b := by
        intro hcb2
        exact hcb (by simpa using hcb2)
      simp only [List.map_cons, List.sum_cons, if_neg hne]
      rw [ih ht hct]
      norm_num

theorem catCols_mem_cols (t : Table) (nc : String × List CCell) (h : nc ∈ t.catCols) :
    (nc.1, Col.cat nc.2) ∈ t.cols := by
  rcases List.mem_filterMap.mp h with ⟨x, hx, hsel⟩
  obtain ⟨xn, xc⟩ := x
  cases xc with
  | num v => simp [catSel] at hsel
  | cat v =>
    have hxn : ((xn, v) : String × List CCell) = nc := by simpa [catSel] using hsel
    rw [← hxn]
    exact hx

theorem numCols_mem_cols (t : Table) (nc : String × List NCell) (h : nc ∈ t.numCols) :
    (nc.1, Col.num nc.2) ∈ t.cols := by
  rcases List.mem_filterMap.mp h with ⟨x, hx, hsel⟩
  obtain ⟨xn, xc⟩ := x
  cases xc with
  | cat v => simp [numSel] at hsel
  | num v =>
    have hxn : ((xn, v) : String × List NCell) = nc := by simpa [numSel] using hsel
    rw [← hxn]
    exact hx

theorem scaleColV_length (vs : List NCell) : (scaleColV vs).length = vs.length := by
  unfold scaleColV
  rw [List.length_map]

theorem fillMean_length (vs : List NCell) : (fillMean vs).length = vs.length := by
  unfold fillMean
  rw [List.length_map]

theorem dummyCol_length (v : String) (vals : List CCell) :
    (dummyCol v vals).length = vals.length := by
  unfold dummyCol
  rw [List.length_map]

theorem dummyGroup_length (n : String) (vals : List CCell) :
    (dummyGroup n vals).length = (sortedDistinct (observedS vals)).length := by
  unfold dummyGroup
  rw [List.length_map]

theorem dummyGroup_card (nc : String × List CCell)
    (hobs1 : (observedS nc.2).isEmpty = false) :
    (dummyGroup nc.1 (nc.2.map (fillCell (modeHead nc.2)))).length
      = (sortedDistinct (observedS nc.2)).length := by
  have hne : observedS nc.2 ≠ [] := by
    intro hc
    rw [hc] at hobs1
    simp at hobs1
  obtain ⟨m, hm⟩ := modeHead_some nc.2 hne
  have hmo : m ∈ observedS nc.2 := (modeHead_props nc.2 m hm).1
  rw [hm, dummyGroup_length, sortedDistinct_fill nc.2 m hmo]

theorem dummyGroup_row_sums_aux (n : String) (ws : List CCell)
    (hcells : ∀ cell ∈ ws, ∃ w, cell = some w) :
    sumCols ((dummyGroup n ws).map (fun d => d.2)) ws.length
      = List.replicate ws.length 1 := by
  unfold dummyGroup
  rw [List.map_map]
  have hfun : ((fun d : String × List ℚ => d.2) ∘ fun v => (n ++ "_" ++ v, dummyCol v ws))
      = fun v => dummyCol v ws := by
    funext v
    rfl
  rw [hfun, sumCols_indicator]
  have hone : ∀ cell ∈ ws,
      ((sortedDistinct (observedS ws)).map
        (fun v => if cell = some v then (1:ℚ) else 0)).sum = (fun _ => (1:ℚ)) cell := by
    intro cell hcell
    obtain ⟨w, hw⟩ := hcells cell hcell
    subst hw
    exact sum_indicator_one w _ (nodup_sortedDistinct _)
      ((mem_sortedDistinct _ _).mpr (mem_observed_of_cell ws w hcell))
  rw [List.map_congr_left hone, map_const_replicate]

/-! ### Claim C4 -/

/-- Claim C4 counterexample: the categorical column b = [NaN] (all Missing)
is dropped entirely by get_dummies — zero indicator columns — so its
indicator row sums are 0, not 1, in the one existing row: on the table with
columns a = [x] and b = [NaN] the preprocessed output holds only the single
indicator for a. -/
theorem C4_counterexample :
    dummyGroup "b" [none] = [] ∧
    prepCols ⟨[("a", Col.cat [some "x"]), ("b", Col.cat [none])]⟩
      = [("ax", PCol.ind [1])] :=
  ⟨by decide, by rfl⟩

/-- Claim C4 amended: provided every categorical column has at least one
non-missing value, the preprocessed table satisfies the one-hot properties
the claim states: the total column count is numNumerical plus the sum of the
cardinalities (distinct observed values) of the categorical columns; the row
count is preserved in every output column; each categorical column yields
exactly cardinality-many indicator columns, all of whose entries are 0 or 1,
appearing in the output unscaled, with the indicators of one column summing
to 1 in every row; and the encoder passes the (imputed) numerical columns
through unchanged.  The distinct-encoded-names hypothesis is needed because
at a name collision the code's name-based scaling z-scores the colliding
indicator, which then does not appear unscaled in the output; and a
categorical column whose values are all Missing violates the row-sum
clause: it yields zero indicator columns (row sums 0), as the
counterexample shows. -/
theorem C4_amended (t : Table) (nrows : Nat)
    (himp : modeRowExists (imputeNumT t) = true)
    (hnod : ((encodeTable (imputeCatT (imputeNumT t))).cols.map Prod.fst).Nodup)
    (hobs : ∀ nc ∈ t.catCols, (observedS nc.2).isEmpty = false)
    (hrect : ∀ nc ∈ t.cols, nc.2.len = nrows) :
    ((prepCols t).length
        = t.numCols.length
          + (t.catCols.map (fun nc => (sortedDistinct (observedS nc.2)).length)).sum) ∧
    (∀ nc ∈ prepCols t, nc.2.plen = nrows) ∧
    (∀ nc ∈ t.catCols,
      ((dummyGroup nc.1 (nc.2.map (fillCell (modeHead nc.2)))).length
          = (sortedDistinct (observedS nc.2)).length) ∧
      (∀ d ∈ dummyGroup nc.1 (nc.2.map (fillCell (modeHead nc.2))),
        (stripU d.1, PCol.ind d.2) ∈ prepCols t ∧ (∀ x ∈ d.2, x = 0 ∨ x = 1)) ∧
      (sumCols ((dummyGroup nc.1 (nc.2.map (fillCell (modeHead nc.2)))).map
          (fun d => d.2)) nrows = List.replicate nrows 1)) ∧
    (∀ nc ∈ (imputeCatT (imputeNumT t)).numCols,
      (nc.1, ECol.num nc.2) ∈ (encodeTable (imputeCatT (imputeNumT t))).cols) := by
  refine ⟨?_, ?_, ?_, ?_⟩
  · -- total column count
    rw [prepCols_eq t himp hnod, List.length_append, List.length_map,
      numCols_imputeCatT, numCols_imputeNumT, List.length_map,
      List.length_flatMap, catCols_imputeCatT, catCols_imputeNumT, List.map_map]
    congr 1
    refine congrArg List.sum (List.map_congr_left ?_)
    intro nc hnc
    show ((dummyGroup nc.1 (nc.2.map (fillCell (modeHead nc.2)))).map
        (fun d => (stripU d.1, PCol.ind d.2))).length = _
    rw [List.length_map]
    exact dummyGroup_card nc (hobs nc hnc)
  · -- row count preserved
    intro nc hnc
    rw [prepCols_eq t himp hnod] at hnc
    rcases List.mem_append.mp hnc with hA | hB
    · rcases List.mem_map.mp hA with ⟨mc, hmc, hmceq⟩
      rw [numCols_imputeCatT, numCols_imputeNumT] at hmc
      rcases List.mem_map.mp hmc with ⟨oc, hoc, hoceq⟩
      rw [← hmceq, ← hoceq]
      show (PCol.num (scaleColV (fillMean oc.2))).plen = nrows
      simp only [PCol.plen]
      rw [scaleColV_length, fillMean_length]
      have hlen := hrect (oc.1, Col.num oc.2) (numCols_mem_cols t oc hoc)
      simpa [Col.len] using hlen
    · rcases List.mem_flatMap.mp hB with ⟨cc, hcc, hin⟩
      rcases List.mem_map.mp hin with ⟨d, hd, hdeq⟩
      rw [← hdeq]
      show (PCol.ind d.2).plen = nrows
      simp only [PCol.plen]
      rcases List.mem_map.mp hd with ⟨v, hv, hveq⟩
      rw [← hveq]
      show (dummyCol v cc.2).length = nrows
      rw [dummyCol_length]
      rw [catCols_imputeCatT, catCols_imputeNumT] at hcc
      rcases List.mem_map.mp hcc with ⟨ocat, hocat, hoceq2⟩
      rw [← hoceq2]
      show (ocat.2.map (fillCell (modeHead ocat.2))).length = nrows
      rw [List.length_map]
      have hlen := hrect (ocat.1, Col.cat ocat.2) (catCols_mem_cols t ocat hocat)
      simpa [Col.len] using hlen
  · -- one-hot properties per categorical column
    intro nc hnc
    have hne : observedS nc.2 ≠ [] := by
      intro hc
      have hobs1 := hobs nc hnc
      rw [hc] at hobs1
      simp at hobs1
    obtain ⟨m, hm⟩ := modeHead_some nc.2 hne
    refine ⟨dummyGroup_card nc (hobs nc hnc), ?_, ?_⟩
    · intro d hd
      constructor
      · rw [prepCols_eq t himp hnod]
        apply List.mem_append.mpr
        right
        apply List.mem_flatMap.mpr
        refine ⟨(nc.1, nc.2.map (fillCell (modeHead nc.2))), ?_, ?_⟩
        · rw [catCols_imputeCatT, catCols_imputeNumT]
          exact List.mem_map.mpr ⟨nc, hnc, rfl⟩
        · exact List.mem_map.mpr ⟨d, hd, rfl⟩
      · rcases List.mem_map.mp hd with ⟨v, _, hveq⟩
        rw [← hveq]
        exact dummyCol_01 v _
    · rw [hm]
      have hlen : (nc.2.map (fillCell (some m))).length = nrows := by
        rw [List.length_map]
        have hl2 := hrect (nc.1, Col.cat nc.2) (catCols_mem_cols t nc hnc)
        simpa [Col.len] using hl2
      rw [← hlen]
      exact dummyGroup_row_sums_aux nc.1 _ (fillCat_cells nc.2 m)
  · -- numerical columns pass through encoding
    intro nc hnc
    show (nc.1, ECol.num nc.2) ∈ (encodeTable (imputeCatT (imputeNumT t))).cols
    unfold encodeTable
    apply List.mem_append.mpr
    left
    exact List.mem_map.mpr ⟨nc, hnc, rfl⟩

/-- Witness for C4_amended at the table k = [1, NaN], c = [b, a] (2 rows). -/
theorem C4_witness :
    ((prepCols ⟨[("k", Col.num [some 1, none]), ("c", Col.cat [some "b", some "a"])]⟩).length
        = (⟨[("k", Col.num [some 1, none]),
            ("c", Col.cat [some "b", some "a"])]⟩ : Table).numCols.length
          + ((⟨[("k", Col.num [some 1, none]),
              ("c", Col.cat [some "b", some "a"])]⟩ : Table).catCols.map
              (fun nc => (sortedDistinct (observedS nc.2)).length)).sum) ∧
    (∀ nc ∈ prepCols ⟨[("k", Col.num [some 1, none]),
        ("c", Col.cat [some "b", some "a"])]⟩, nc.2.plen = 2) ∧
    (∀ nc ∈ (⟨[("k", Col.num [some 1, none]),
        ("c", Col.cat [some "b", some "a"])]⟩ : Table).catCols,
      ((dummyGroup nc.1 (nc.2.map (fillCell (modeHead nc.2)))).length
          = (sortedDistinct (observedS nc.2)).length) ∧
      (∀ d ∈ dummyGroup nc.1 (nc.2.map (fillCell (modeHead nc.2))),
        (stripU d.1, PCol.ind d.2) ∈ prepCols ⟨[("k", Col.num [some 1, none]),
          ("c", Col.cat [some "b", some "a"])]⟩ ∧
        (∀ x ∈ d.2, x = 0 ∨ x = 1)) ∧
      (sumCols ((dummyGroup nc.1 (nc.2.map (fillCell (modeHead nc.2)))).map
          (fun d => d.2)) 2 = List.replicate 2 1)) ∧
    (∀ nc ∈ (imputeCatT (imputeNumT ⟨[("k", Col.num [some 1, none]),
        ("c", Col.cat [some "b", some "a"])]⟩)).numCols,
      (nc.1, ECol.num nc.2) ∈ (encodeTable (imputeCatT (imputeNumT
        ⟨[("k", Col.num [some 1, none]),
          ("c", Col.cat [some "b", some "a"])]⟩))).cols) :=
  C4_amended ⟨[("k", Col.num [some 1, none]), ("c", Col.cat [some "b", some "a"])]⟩ 2
    (by decide) (by decide) (by decide) (by decide)

end AutoEDA
